import Mathlib

/-!
Verification of the `initd` init system core (dependency resolver, service
manager, shutdown sequence) against its specification.

The definitions below are a shallow embedding of the Rust sources:
* `src/initd/src/config.rs`   — `ServiceConfig`, `RestartPolicy`, `ServiceType`
* `src/initd/src/dependency.rs` — `resolve_start_order` (Kahn's algorithm)
* `src/initd/src/service.rs`  — `ServiceManager` (start / reap / stop / stop_all)
* `src/initd/src/mount.rs`, `src/initd/src/shutdown.rs` — mount and unmount order

Modelling conventions:
* Rust `HashMap`/`HashSet` become association lists / plain lists; only
  membership-level facts (never iteration order) are relied on by theorems,
  matching the nondeterministic iteration order of the originals.
* Rust `usize` in-degree counters become `Int` (decrement really subtracts,
  and the `== 0` test of wrapped release-mode arithmetic is `= 0` on `Int`).
* OS effects (process spawn, exit status, unmount results) become explicit
  outcome parameters supplied by the environment.
-/

namespace Initd

/-- Restart policy of a service (`config.rs`, `RestartPolicy`). -/
inductive RestartPolicy where
  | always
  | onFailure
  | never
deriving DecidableEq, Repr

/-- Service type (`config.rs`, `ServiceType`). -/
inductive ServiceType where
  | simple
  | oneshot
deriving DecidableEq, Repr

/-- Parsed service configuration (`config.rs`, `ServiceConfig`).
The `environment` HashMap is modelled as an association list. -/
structure ServiceConfig where
  name : String
  exec : String
  args : List String := []
  depends_on : List String := []
  restart : RestartPolicy := .onFailure
  service_type : ServiceType := .simple
  environment : List (String × String) := []
deriving DecidableEq, Repr

/-- Errors produced by `resolve_start_order` (`dependency.rs` uses `anyhow`
messages; we keep the two bail sites as structured constructors). -/
inductive ResolveError where
  /-- "service S depends on unknown service D" -/
  | unknownDependency (service : String) (dep : String)
  /-- "circular dependency detected involving: NAMES" -/
  | circularDependency (names : List String)
deriving DecidableEq, Repr

/-! ### String ordering

Rust's `&str` sorts byte-wise lexicographically.  We model the comparison on
the code-point list, which coincides with the byte order on ASCII names (all
names in the repository's configs and tests are ASCII). -/

/-- Lexicographic `≤` on code-point lists. -/
def charListLe : List Char → List Char → Bool
  | [], _ => true
  | _ :: _, [] => false
  | a :: as, b :: bs =>
    if a.toNat < b.toNat then true
    else if b.toNat < a.toNat then false
    else charListLe as bs

/-- `≤` on strings, models Rust's `str` ordering. -/
def strLe (a b : String) : Bool := charListLe a.data b.data

/-- Insert into an ascending list, keeping it ascending. -/
def insertSorted (x : String) : List String → List String
  | [] => [x]
  | y :: ys => if strLe x y then x :: y :: ys else y :: insertSorted x ys

/-- Ascending stable sort; models `Vec::sort` on `&str` batches. -/
def sortStrings (l : List String) : List String := l.foldr insertSorted []

/-! ### Dependency resolver (`dependency.rs`) -/

/-- The validation pass of `resolve_start_order`: the first
`(service, dependency)` pair whose dependency names no known service,
scanning services in order and their `depends_on` lists in order. -/
def findUnknownDep (services : List ServiceConfig) : Option (String × String) :=
  services.findSome? fun s =>
    s.depends_on.findSome? fun d =>
      if services.any (fun t => t.name == d) then none else some (s.name, d)

/-- The node set of the dependency graph: the distinct service names
(the keys of the `in_degree` HashMap / the `names` HashSet). -/
def nodesOf (services : List ServiceConfig) : List String :=
  (services.map (·.name)).dedup

/-- Initial in-degree of node `n`: one increment per `depends_on` entry of
each service named `n` (services with a duplicate name accumulate on the
same key, exactly as the `in_degree` HashMap does). -/
def indeg0 (services : List ServiceConfig) (n : String) : Int :=
  ((services.filter (fun s => s.name == n)).map
    (fun s => (s.depends_on.length : Int))).sum

/-- `dependents[d]`: one push of `s.name` per occurrence of `d` in
`s.depends_on`, scanning services in order. -/
def dependentsOf (services : List ServiceConfig) (d : String) : List String :=
  services.flatMap fun s =>
    (s.depends_on.filter (fun x => x == d)).map (fun _ => s.name)

/-- Process the dependents list of a just-dequeued node: decrement each
dependent's in-degree and collect (in list order) those that reach zero.
Mirrors the inner `for &dependent in deps` loop of `resolve_start_order`. -/
def processDeps (indeg : String → Int) : List String → (String → Int) × List String
  | [] => (indeg, [])
  | d :: rest =>
    let v := indeg d - 1
    let indeg' := fun x => if x = d then v else indeg x
    let p := processDeps indeg' rest
    (p.1, if v = 0 then d :: p.2 else p.2)

/-- Kahn's main loop (`while let Some(name) = queue.pop_front()`): pop the
queue head, append it to the order, decrement its dependents, and enqueue the
sorted batch of dependents that reached in-degree zero.  `fuel` is a
structural bound; `2 * |services| + 2` strictly exceeds the number of
enqueues any input can cause, so the loop always runs to queue exhaustion. -/
def kahnLoop (dep : String → List String) :
    Nat → List String → (String → Int) → List String → List String
  | 0, _, _, order => order
  | _ + 1, [], _, order => order
  | fuel + 1, m :: rest, indeg, order =>
    let p := processDeps indeg (dep m)
    kahnLoop dep fuel (rest ++ sortStrings p.2) p.1 (order ++ [m])

/-- The (possibly partial) topological order produced by the Kahn loop of
`resolve_start_order`: initial queue is the in-degree-zero nodes sorted
lexicographically. -/
def kahnOrder (services : List ServiceConfig) : List String :=
  let deg := indeg0 services
  let ready := sortStrings ((nodesOf services).filter (fun n => decide (deg n = 0)))
  kahnLoop (dependentsOf services) (2 * services.length + 2) ready deg []

/-- `resolve_start_order` (`dependency.rs:11-82`): validate dependencies,
run Kahn's algorithm, and fail with the set of unplaced names if the order
is incomplete. -/
def resolve_start_order (services : List ServiceConfig) :
    Except ResolveError (List String) :=
  match findUnknownDep services with
  | some (s, d) => .error (.unknownDependency s d)
  | none =>
    let order := kahnOrder services
    if order.length = services.length then .ok order
    else .error (.circularDependency
      ((nodesOf services).filter (fun n => !(decide (n ∈ order)))))

/-- `a` depends on `b`: some service named `a` lists `b` in its
`depends_on`.  (The edge direction of the spec: `b` must start before `a`.) -/
def DependsOn (services : List ServiceConfig) (a b : String) : Prop :=
  ∃ s ∈ services, s.name = a ∧ b ∈ s.depends_on

/-- Some services participate in a dependency cycle: a non-trivial closed
walk along the `depends_on` relation. -/
def HasCycle (services : List ServiceConfig) : Prop :=
  ∃ (f : Nat → String) (k : Nat),
    0 < k ∧ (∀ i < k, DependsOn services (f i) (f (i + 1))) ∧ f k = f 0

/-- Invariant of the Kahn loop state `(queue, indeg, order)`:
* `nodup`/`subset`: the placed and queued names are distinct node names;
* `degEq`: each service's tracked in-degree counts its dependencies not yet
  placed in `order`;
* `queueZero`: queued nodes have in-degree zero;
* `complete`: an unplaced, unqueued node still has a pending dependency;
* `topo`: every placed name's dependencies are placed strictly before it. -/
structure KInv (services : List ServiceConfig) (queue : List String)
    (indeg : String → Int) (order : List String) : Prop where
  nodup : (order ++ queue).Nodup
  subset : ∀ n ∈ order ++ queue, n ∈ nodesOf services
  degEq : ∀ s ∈ services,
    indeg s.name
      = ((s.depends_on.filter (fun d => !(decide (d ∈ order)))).length : Int)
  queueZero : ∀ n ∈ queue, indeg n = 0
  complete : ∀ s ∈ services, s.name ∉ order → s.name ∉ queue →
    indeg s.name ≠ 0
  topo : ∀ (i : Nat) (h : i < order.length), ∀ s ∈ services,
    order[i] = s.name → ∀ d ∈ s.depends_on, d ∈ order.take i

instance {ε α : Type} [DecidableEq ε] [DecidableEq α] : DecidableEq (Except ε α)
  | .ok a, .ok b => if h : a = b then .isTrue (by rw [h]) else .isFalse (by simp [h])
  | .ok _, .error _ => .isFalse (by simp)
  | .error _, .ok _ => .isFalse (by simp)
  | .error e, .error f => if h : e = f then .isTrue (by rw [h]) else .isFalse (by simp [h])

/-! ### Service manager (`service.rs`)

OS process effects are supplied as explicit outcome parameters:
* `start_service` takes `spawnFailure : Option String` (`none` = the spawn
  succeeded, `some cause` = it failed with that underlying cause);
* `reap` takes `exits : String → Option Bool` (`none` = still running or
  status-poll error, `some b` = exited, `b` = `status.success()`) and
  `respawnFailure : String → Option String` for `spawn_with_count`.
The `Child` process handle carries no state the claims mention, so
`RunningService` keeps only the config and the restart count. -/

/-- `service.rs`, `ServiceState` (derived via `ServiceManager::state`). -/
inductive ServiceState where
  | stopped
  | running
  | finished
  | failed
deriving DecidableEq, Repr

/-- `service.rs`, `RunningService` (without the OS process handle). -/
structure RunningService where
  config : ServiceConfig
  restart_count : Nat
deriving DecidableEq, Repr

/-- A failed spawn: anyhow context "failed to start service NAME" wrapping
the underlying cause. -/
structure SpawnError where
  service : String
  cause : String
deriving DecidableEq, Repr

/-- Key lookup in an association list (models `HashMap::get`). -/
def lookupA {α : Type} (k : String) : List (String × α) → Option α
  | [] => none
  | (k', v) :: rest => if k' = k then some v else lookupA k rest

/-- Key removal (models `HashMap::remove`'s effect on the table). -/
def eraseA {α : Type} (k : String) (l : List (String × α)) : List (String × α) :=
  l.filter (fun p => !(decide (p.1 = k)))

/-- Key insertion/replacement (models `HashMap::insert`). -/
def insertA {α : Type} (k : String) (v : α) (l : List (String × α)) :
    List (String × α) :=
  eraseA k l ++ [(k, v)]

/-- `service.rs`, `ServiceManager`: the running and finished tables
(HashMaps modelled as association lists; theorems never rely on order). -/
structure ServiceManager where
  running : List (String × RunningService)
  finished : List (String × ServiceConfig)
deriving DecidableEq, Repr

/-- `service.rs:30`. -/
def MAX_RESTART_COUNT : Nat := 5

/-- `ServiceManager::new`. -/
def ServiceManager.new : ServiceManager := ⟨[], []⟩

/-- `ServiceManager::start_service`: on spawn success insert a
`RunningService` with `restart_count = 0`; on failure return the error and
leave the tables untouched. -/
def start_service (m : ServiceManager) (config : ServiceConfig)
    (spawnFailure : Option String) : ServiceManager × Except SpawnError Unit :=
  match spawnFailure with
  | some cause => (m, .error ⟨config.name, cause⟩)
  | none =>
    ({ m with running := insertA config.name ⟨config, 0⟩ m.running }, .ok ())

/-- `ServiceManager::state`: running table first, then finished, else
Stopped. -/
def ServiceManager.state (m : ServiceManager) (name : String) : ServiceState :=
  if (lookupA name m.running).isSome then .running
  else if (lookupA name m.finished).isSome then .finished
  else .stopped

/-- `ServiceManager::running_count`. -/
def ServiceManager.running_count (m : ServiceManager) : Nat := m.running.length

/-- The restart decision of `ServiceManager::reap` (`service.rs:108-113`),
the `match (&svc.config.restart, &svc.config.service_type)` table with its
arms in source order. -/
def should_restart (restart : RestartPolicy) (service_type : ServiceType)
    (success : Bool) : Bool :=
  match restart, service_type with
  | _, .oneshot => false
  | .always, _ => true
  | .onFailure, _ => !success
  | .never, _ => false

/-- Processing of one exited `(name, success)` pair in `reap`'s second loop:
remove it from the running table, apply the restart decision and the
`MAX_RESTART_COUNT` cap, then either respawn with `restart_count + 1`
(`spawn_with_count`) or move the config to the finished table. -/
def reapStep (respawnFailure : String → Option String) (acc : ServiceManager)
    (e : String × Bool) : ServiceManager :=
  match lookupA e.1 acc.running with
  | none => acc
    -- `self.running.remove(&name).unwrap()` cannot fail: the exited names
    -- are distinct keys of the running table.
  | some svc =>
    let acc' : ServiceManager := { acc with running := eraseA e.1 acc.running }
    if should_restart svc.config.restart svc.config.service_type e.2 = true
        ∧ svc.restart_count < MAX_RESTART_COUNT then
      match respawnFailure e.1 with
      | none =>
        let respawned : RunningService := ⟨svc.config, svc.restart_count + 1⟩
        { acc' with running := insertA e.1 respawned acc'.running }
      | some _ =>
        { acc' with finished := insertA e.1 svc.config acc'.finished }
    else
      { acc' with finished := insertA e.1 svc.config acc'.finished }

/-- `ServiceManager::reap`: collect the exited services (those whose
`try_wait` reports an exit status), process each, and return the exited
names. -/
def reap (exits : String → Option Bool) (respawnFailure : String → Option String)
    (m : ServiceManager) : ServiceManager × List String :=
  let exited := m.running.filterMap (fun p => (exits p.1).map (fun ok => (p.1, ok)))
  (exited.foldl (reapStep respawnFailure) m, exited.map (·.1))

/-- `ServiceManager::stop_service`: if running, remove from the running
table and insert the config into the finished table; otherwise a no-op.
Always returns `Ok(())`. -/
def stop_service (m : ServiceManager) (name : String) :
    ServiceManager × Except SpawnError Unit :=
  match lookupA name m.running with
  | some svc =>
    ({ running := eraseA name m.running,
       finished := insertA name svc.config m.finished }, .ok ())
  | none => (m, .ok ())

/-- `ServiceManager::stop_all`: stop every currently running name. -/
def stop_all (m : ServiceManager) : ServiceManager :=
  (m.running.map (·.1)).foldl (fun acc n => (stop_service acc n).1) m

/-- The states reachable from `ServiceManager::new` by any sequence of
`start_service`, `reap`, `stop_service` and `stop_all` calls, under any
environment outcomes. -/
inductive Reachable : ServiceManager → Prop
  | new : Reachable .new
  | start (m config spawnFailure) :
      Reachable m → Reachable (start_service m config spawnFailure).1
  | reap (m exits respawnFailure) :
      Reachable m → Reachable (reap exits respawnFailure m).1
  | stop (m name) : Reachable m → Reachable (stop_service m name).1
  | stopAll (m) : Reachable m → Reachable (stop_all m)

/-- As `Reachable`, but `start_service` is only invoked for names that are
not currently in the finished table (the restriction forced by the C8
counterexample). -/
inductive ReachableR : ServiceManager → Prop
  | new : ReachableR .new
  | start (m config spawnFailure) :
      lookupA config.name m.finished = none →
      ReachableR m → ReachableR (start_service m config spawnFailure).1
  | reap (m exits respawnFailure) :
      ReachableR m → ReachableR (reap exits respawnFailure m).1
  | stop (m name) : ReachableR m → ReachableR (stop_service m name).1
  | stopAll (m) : ReachableR m → ReachableR (stop_all m)

/-! ### Early mounts and shutdown (`mount.rs`, `shutdown.rs`) -/

/-- `mount.rs`, `MountFlags::NOSUID` (the only flag used). -/
inductive MountFlag where
  | nosuid
deriving DecidableEq, Repr

/-- `mount.rs`, `MountPoint`. -/
structure MountPoint where
  source : String
  target : String
  fstype : String
  flags : MountFlag
deriving DecidableEq, Repr

/-- `mount.rs:15-46`, `EARLY_MOUNTS`, in source order. -/
def EARLY_MOUNTS : List MountPoint :=
  [⟨"proc", "/proc", "proc", .nosuid⟩,
   ⟨"sysfs", "/sys", "sysfs", .nosuid⟩,
   ⟨"devtmpfs", "/dev", "devtmpfs", .nosuid⟩,
   ⟨"tmpfs", "/tmp", "tmpfs", .nosuid⟩,
   ⟨"tmpfs", "/run", "tmpfs", .nosuid⟩]

/-- `shutdown.rs:10`, `UNMOUNT_ORDER`. -/
def UNMOUNT_ORDER : List String := ["/run", "/tmp", "/dev", "/sys", "/proc"]

/-- `rustix::mount::UnmountFlags::DETACH` (the only flag
`unmount_filesystems` passes). -/
inductive UnmountFlag where
  | detach
deriving DecidableEq, Repr

/-- `shutdown.rs:40-47`, `unmount_filesystems`: the sequence of unmount
attempts, one per `UNMOUNT_ORDER` target with `DETACH`, made regardless of
each attempt's outcome (failures are logged and non-fatal). -/
def unmount_filesystems (outcome : String → Bool) :
    List (String × UnmountFlag × Bool) :=
  UNMOUNT_ORDER.map (fun t => (t, UnmountFlag.detach, outcome t))

/-! ### Concrete instances used by example-based claims -/

/-- A Simple/OnFailure service (the restart-cap scenario of the spec). -/
def failingCfg : ServiceConfig :=
  { name := "svc", exec := "/bin/false", restart := .onFailure,
    service_type := .simple }

/-- A Simple/Never service. -/
def neverCfg : ServiceConfig :=
  { name := "s", exec := "/bin/true", restart := .never,
    service_type := .simple }

/-- One supervision cycle in which every running service's process has
exited with failure and every respawn attempt succeeds. -/
def reapAllFail (m : ServiceManager) : ServiceManager :=
  (reap (fun _ => some false) (fun _ => none) m).1

/-- An acyclic two-service input: `b` depends on `a`. -/
def chainInput : List ServiceConfig :=
  [{ name := "b", exec := "/usr/bin/b", depends_on := ["a"] },
   { name := "a", exec := "/usr/bin/a" }]

/-- A mutual dependency cycle: `a` depends on `b`, `b` depends on `a`. -/
def cycleInput : List ServiceConfig :=
  [{ name := "a", exec := "/usr/bin/a", depends_on := ["b"] },
   { name := "b", exec := "/usr/bin/b", depends_on := ["a"] }]

/-- The state after `start_service(neverCfg)`, a successful exit reaped,
and `start_service(neverCfg)` again — the C8 counterexample state. -/
def doubleStart : ServiceManager :=
  (start_service
    (reap (fun _ => some true) (fun _ => none)
      (start_service .new neverCfg none).1).1
    neverCfg none).1

/-! ## Infrastructure lemmas -/

theorem insertSorted_perm (x : String) (l : List String) :
    (insertSorted x l).Perm (x :: l) := by
  induction l with
  | nil => exact List.Perm.refl _
  | cons y ys ih =>
    simp only [insertSorted]
    split
    · exact List.Perm.refl _
    · exact ((ih.cons y).trans (List.Perm.swap x y ys))

theorem sortStrings_perm (l : List String) : (sortStrings l).Perm l := by
  induction l with
  | nil => exact List.Perm.refl _
  | cons x xs ih =>
    have h1 : sortStrings (x :: xs) = insertSorted x (sortStrings xs) := rfl
    rw [h1]
    exact (insertSorted_perm x (sortStrings xs)).trans (ih.cons x)

theorem mem_sortStrings {a : String} {l : List String} :
    a ∈ sortStrings l ↔ a ∈ l :=
  (sortStrings_perm l).mem_iff

theorem sortStrings_nodup {l : List String} (h : l.Nodup) :
    (sortStrings l).Nodup :=
  (sortStrings_perm l).nodup_iff.mpr h

theorem lookupA_mem {α : Type} {k : String} {v : α} {l : List (String × α)}
    (h : lookupA k l = some v) : (k, v) ∈ l := by
  induction l with
  | nil => simp [lookupA] at h
  | cons p rest ih =>
    obtain ⟨k', v'⟩ := p
    by_cases hk : k' = k
    · subst hk
      simp [lookupA] at h
      simp [h]
    · simp [lookupA, hk] at h
      exact List.mem_cons_of_mem _ (ih h)

theorem lookupA_eq_none_iff {α : Type} {k : String} {l : List (String × α)} :
    lookupA k l = none ↔ k ∉ l.map (·.1) := by
  induction l with
  | nil => simp [lookupA]
  | cons p rest ih =>
    obtain ⟨k', v'⟩ := p
    by_cases hk : k' = k
    · subst hk
      simp [lookupA]
    · have h1 : lookupA k ((k', v') :: rest) = lookupA k rest := by
        simp [lookupA, hk]
      rw [h1, ih]
      simp only [List.map_cons, List.mem_cons, not_or]
      constructor
      · intro h2
        exact ⟨fun he => hk he.symm, h2⟩
      · intro h2
        exact h2.2

theorem eraseA_subset {α : Type} {k : String} {p : String × α}
    {l : List (String × α)} (h : p ∈ eraseA k l) : p ∈ l :=
  List.mem_of_mem_filter h

theorem mem_eraseA {α : Type} {k : String} {p : String × α}
    {l : List (String × α)} : p ∈ eraseA k l ↔ p ∈ l ∧ p.1 ≠ k := by
  simp [eraseA, List.mem_filter]

theorem lookupA_eraseA_self {α : Type} (k : String) (l : List (String × α)) :
    lookupA k (eraseA k l) = none := by
  rw [lookupA_eq_none_iff]
  intro h
  obtain ⟨p, hp, hfst⟩ := List.mem_map.mp h
  exact absurd hfst (mem_eraseA.mp hp).2

theorem lookupA_append {α : Type} (k : String) (l1 l2 : List (String × α)) :
    lookupA k (l1 ++ l2) =
      match lookupA k l1 with
      | some v => some v
      | none => lookupA k l2 := by
  induction l1 with
  | nil => simp [lookupA]
  | cons p rest ih =>
    obtain ⟨k', v'⟩ := p
    by_cases hk : k' = k <;> simp [lookupA, hk, ih]

theorem lookupA_insertA_self {α : Type} (k : String) (v : α)
    (l : List (String × α)) : lookupA k (insertA k v l) = some v := by
  rw [insertA, lookupA_append, lookupA_eraseA_self]
  simp [lookupA]

theorem lookupA_eraseA_ne {α : Type} {k k' : String} (l : List (String × α))
    (h : k' ≠ k) : lookupA k' (eraseA k l) = lookupA k' l := by
  induction l with
  | nil => rfl
  | cons p rest ih =>
    obtain ⟨k'', v''⟩ := p
    by_cases hk : k'' = k
    · have h2 : k'' ≠ k' := fun he => h (he ▸ hk)
      have h3 : eraseA k ((k'', v'') :: rest) = eraseA k rest := by
        simp [eraseA, hk]
      rw [h3, ih]
      simp [lookupA, h2]
    · have h3 : eraseA k ((k'', v'') :: rest) = (k'', v'') :: eraseA k rest := by
        simp [eraseA, hk]
      rw [h3]
      by_cases hk2 : k'' = k'
      · simp [lookupA, hk2]
      · simp [lookupA, hk2, ih]

theorem lookupA_insertA_ne {α : Type} {k k' : String} (v : α)
    (l : List (String × α)) (h : k' ≠ k) :
    lookupA k' (insertA k v l) = lookupA k' l := by
  rw [insertA, lookupA_append, lookupA_eraseA_ne l h]
  cases hv : lookupA k' l with
  | some w => rfl
  | none =>
    have h2 : k ≠ k' := fun he => h he.symm
    simp [lookupA, h2]

theorem mem_insertA {α : Type} {k : String} {v : α} {p : String × α}
    {l : List (String × α)} (h : p ∈ insertA k v l) : p = (k, v) ∨ p ∈ l := by
  rcases List.mem_append.mp h with h1 | h1
  · exact Or.inr (eraseA_subset h1)
  · simp at h1
    exact Or.inl h1

/-! ## Service manager invariants -/

theorem reapStep_count_le {respawnFailure : String → Option String}
    {acc : ServiceManager} {e : String × Bool}
    (h : ∀ p ∈ acc.running, p.2.restart_count ≤ MAX_RESTART_COUNT) :
    ∀ p ∈ (reapStep respawnFailure acc e).running,
      p.2.restart_count ≤ MAX_RESTART_COUNT := by
  cases hl : lookupA e.1 acc.running with
  | none =>
    simp only [reapStep, hl]
    exact h
  | some svc =>
    simp only [reapStep, hl]
    split
    · cases hr : respawnFailure e.1 with
      | none =>
        simp only [hr]
        intro p hp
        rcases mem_insertA hp with he | hm
        · rw [he]
          have hlt : svc.restart_count < MAX_RESTART_COUNT := by
            rename_i hcond
            exact hcond.2
          show svc.restart_count + 1 ≤ MAX_RESTART_COUNT
          omega
        · exact h p (eraseA_subset hm)
      | some err =>
        simp only [hr]
        intro p hp
        exact h p (eraseA_subset hp)
    · intro p hp
      exact h p (eraseA_subset hp)

theorem foldl_reapStep_count_le {respawnFailure : String → Option String} :
    ∀ (l : List (String × Bool)) (m : ServiceManager),
      (∀ p ∈ m.running, p.2.restart_count ≤ MAX_RESTART_COUNT) →
      ∀ p ∈ (l.foldl (reapStep respawnFailure) m).running,
        p.2.restart_count ≤ MAX_RESTART_COUNT := by
  intro l
  induction l with
  | nil => intro m h; exact h
  | cons e rest ih =>
    intro m h
    exact ih _ (reapStep_count_le h)

theorem stop_service_count_le {m : ServiceManager} {name : String}
    (h : ∀ p ∈ m.running, p.2.restart_count ≤ MAX_RESTART_COUNT) :
    ∀ p ∈ (stop_service m name).1.running,
      p.2.restart_count ≤ MAX_RESTART_COUNT := by
  cases hl : lookupA name m.running with
  | none => simp only [stop_service, hl]; exact h
  | some svc =>
    simp only [stop_service, hl]
    intro p hp
    exact h p (eraseA_subset hp)

theorem stop_all_count_le {m : ServiceManager}
    (h : ∀ p ∈ m.running, p.2.restart_count ≤ MAX_RESTART_COUNT) :
    ∀ p ∈ (stop_all m).running, p.2.restart_count ≤ MAX_RESTART_COUNT := by
  rw [stop_all]
  generalize (m.running.map (·.1)) = names
  induction names generalizing m with
  | nil => exact h
  | cons n rest ih =>
    exact ih (stop_service_count_le h)

theorem reachable_count_le {m : ServiceManager} (hr : Reachable m) :
    ∀ p ∈ m.running, p.2.restart_count ≤ MAX_RESTART_COUNT := by
  induction hr with
  | new => intro p hp; simp [ServiceManager.new] at hp
  | start m config spawnFailure _ ih =>
    cases spawnFailure with
    | some cause => exact ih
    | none =>
      intro p hp
      rcases mem_insertA hp with he | hm
      · rw [he]; simp [MAX_RESTART_COUNT]
      · exact ih p hm
  | reap m exits respawnFailure _ ih =>
    exact foldl_reapStep_count_le _ m ih
  | stop m name _ ih => exact stop_service_count_le ih
  | stopAll m _ ih => exact stop_all_count_le ih

theorem reapStep_disjoint {respawnFailure : String → Option String}
    {acc : ServiceManager} {e : String × Bool}
    (h : ∀ n, ¬((lookupA n acc.running).isSome ∧ (lookupA n acc.finished).isSome)) :
    ∀ n, ¬((lookupA n (reapStep respawnFailure acc e).running).isSome
         ∧ (lookupA n (reapStep respawnFailure acc e).finished).isSome) := by
  cases hl : lookupA e.1 acc.running with
  | none =>
    simp only [reapStep, hl]
    exact h
  | some svc =>
    have hfin : lookupA e.1 acc.finished = none := by
      cases hf : lookupA e.1 acc.finished with
      | none => rfl
      | some c =>
        exact absurd ⟨by simp [hl], by simp [hf]⟩ (h e.1)
    simp only [reapStep, hl]
    split
    · cases hr : respawnFailure e.1 with
      | none =>
        simp only [hr]
        intro n
        by_cases hn : n = e.1
        · subst hn
          simp [hfin]
        · rw [lookupA_insertA_ne _ _ hn, lookupA_eraseA_ne _ hn]
          exact h n
      | some err =>
        simp only [hr]
        intro n
        by_cases hn : n = e.1
        · subst hn
          simp [lookupA_eraseA_self]
        · rw [lookupA_eraseA_ne _ hn, lookupA_insertA_ne _ _ hn]
          exact h n
    · intro n
      by_cases hn : n = e.1
      · subst hn
        simp [lookupA_eraseA_self]
      · rw [lookupA_eraseA_ne _ hn, lookupA_insertA_ne _ _ hn]
        exact h n

theorem foldl_reapStep_disjoint {respawnFailure : String → Option String} :
    ∀ (l : List (String × Bool)) (m : ServiceManager),
      (∀ n, ¬((lookupA n m.running).isSome ∧ (lookupA n m.finished).isSome)) →
      ∀ n, ¬((lookupA n (l.foldl (reapStep respawnFailure) m).running).isSome
           ∧ (lookupA n (l.foldl (reapStep respawnFailure) m).finished).isSome) := by
  intro l
  induction l with
  | nil => intro m h; exact h
  | cons e rest ih =>
    intro m h
    exact ih _ (reapStep_disjoint h)

theorem stop_service_disjoint {m : ServiceManager} {name : String}
    (h : ∀ n, ¬((lookupA n m.running).isSome ∧ (lookupA n m.finished).isSome)) :
    ∀ n, ¬((lookupA n (stop_service m name).1.running).isSome
         ∧ (lookupA n (stop_service m name).1.finished).isSome) := by
  cases hl : lookupA name m.running with
  | none => simp only [stop_service, hl]; exact h
  | some svc =>
    simp only [stop_service, hl]
    intro n
    by_cases hn : n = name
    · subst hn
      simp [lookupA_eraseA_self]
    · rw [lookupA_eraseA_ne _ hn, lookupA_insertA_ne _ _ hn]
      exact h n

theorem stop_all_disjoint {m : ServiceManager}
    (h : ∀ n, ¬((lookupA n m.running).isSome ∧ (lookupA n m.finished).isSome)) :
    ∀ n, ¬((lookupA n (stop_all m).running).isSome
         ∧ (lookupA n (stop_all m).finished).isSome) := by
  rw [stop_all]
  generalize (m.running.map (·.1)) = names
  induction names generalizing m with
  | nil => exact h
  | cons x rest ih =>
    exact ih (stop_service_disjoint h)

theorem reachableR_disjoint {m : ServiceManager} (hr : ReachableR m) :
    ∀ n, ¬((lookupA n m.running).isSome ∧ (lookupA n m.finished).isSome) := by
  induction hr with
  | new => intro n; simp [ServiceManager.new, lookupA]
  | start m config spawnFailure hfin _ ih =>
    cases spawnFailure with
    | some cause => exact ih
    | none =>
      intro n
      by_cases hn : n = config.name
      · subst hn
        rw [show (start_service m config none).1.finished = m.finished from rfl]
        simp [hfin]
      · rw [show (start_service m config none).1.running
            = insertA config.name ⟨config, 0⟩ m.running from rfl,
            lookupA_insertA_ne _ _ hn]
        exact ih n
  | reap m exits respawnFailure _ ih =>
    exact foldl_reapStep_disjoint _ m ih
  | stop m name _ ih => exact stop_service_disjoint ih
  | stopAll m _ ih => exact stop_all_disjoint ih

/-! ## Dependency resolver: basic facts -/

theorem mem_nodesOf {services : List ServiceConfig} {n : String} :
    n ∈ nodesOf services ↔ ∃ s ∈ services, s.name = n := by
  simp [nodesOf, List.mem_dedup, List.mem_map]

theorem nodesOf_nodup (services : List ServiceConfig) :
    (nodesOf services).Nodup :=
  List.nodup_dedup _

theorem nodesOf_length {services : List ServiceConfig}
    (H1 : (services.map (·.name)).Nodup) :
    (nodesOf services).length = services.length := by
  rw [nodesOf, List.dedup_eq_self.mpr H1, List.length_map]

theorem name_inj {services : List ServiceConfig}
    (H1 : (services.map (·.name)).Nodup) :
    ∀ {s t : ServiceConfig}, s ∈ services → t ∈ services →
      s.name = t.name → s = t := by
  induction services with
  | nil => intro s t hs _ _; simp at hs
  | cons a rest ih =>
    simp only [List.map_cons, List.nodup_cons] at H1
    intro s t hs ht he
    rcases List.mem_cons.mp hs with rfl | hs' <;>
      rcases List.mem_cons.mp ht with rfl | ht'
    · rfl
    · exact absurd (by rw [he]; exact List.mem_map_of_mem _ ht') H1.1
    · exact absurd (by rw [← he]; exact List.mem_map_of_mem _ hs') H1.1
    · exact ih H1.2 hs' ht' he

theorem filter_name_eq {services : List ServiceConfig}
    (H1 : (services.map (·.name)).Nodup) {s : ServiceConfig}
    (hs : s ∈ services) :
    services.filter (fun t => t.name == s.name) = [s] := by
  induction services with
  | nil => simp at hs
  | cons a rest ih =>
    simp only [List.map_cons, List.nodup_cons] at H1
    rcases List.mem_cons.mp hs with rfl | hs'
    · rw [List.filter_cons_of_pos (by simp)]
      have hnil : rest.filter (fun t => t.name == s.name) = [] := by
        rw [List.filter_eq_nil_iff]
        intro t ht
        simp only [beq_iff_eq]
        intro he
        exact H1.1 (by rw [← he]; exact List.mem_map_of_mem _ ht)
      rw [hnil]
    · have hne : a.name ≠ s.name := fun he =>
        H1.1 (by rw [he]; exact List.mem_map_of_mem _ hs')
      rw [List.filter_cons_of_neg (by simp [hne])]
      exact ih H1.2 hs'

theorem indeg0_eq {services : List ServiceConfig}
    (H1 : (services.map (·.name)).Nodup) {s : ServiceConfig}
    (hs : s ∈ services) :
    indeg0 services s.name = (s.depends_on.length : Int) := by
  rw [indeg0, filter_name_eq H1 hs]
  simp

theorem filter_beq_of_nodup {l : List String} (h : l.Nodup) (d : String) :
    l.filter (fun x => x == d) = if d ∈ l then [d] else [] := by
  induction l with
  | nil => simp
  | cons x xs ih =>
    simp only [List.nodup_cons] at h
    by_cases hx : x = d
    · subst hx
      rw [List.filter_cons_of_pos (by simp)]
      have hnil : xs.filter (fun y => y == x) = [] := by
        rw [List.filter_eq_nil_iff]
        intro y hy
        simp only [beq_iff_eq]
        intro he
        exact h.1 (he ▸ hy)
      rw [hnil]
      simp
    · rw [List.filter_cons_of_neg (by simp [hx]), ih h.2]
      have hdx : (d ∈ x :: xs) ↔ (d ∈ xs) :=
        ⟨fun hm => (List.mem_cons.mp hm).elim
          (fun he => absurd he.symm hx) id,
         List.mem_cons_of_mem x⟩
      rw [if_congr hdx rfl rfl]

theorem mem_dependentsOf {services : List ServiceConfig} {d n : String} :
    n ∈ dependentsOf services d
      ↔ ∃ s ∈ services, s.name = n ∧ d ∈ s.depends_on := by
  simp only [dependentsOf, List.mem_flatMap, List.mem_map, List.mem_filter,
    beq_iff_eq]
  constructor
  · rintro ⟨s, hs, x, ⟨hx, rfl⟩, rfl⟩
    exact ⟨s, hs, rfl, hx⟩
  · rintro ⟨s, hs, rfl, hd⟩
    exact ⟨s, hs, d, ⟨hd, rfl⟩, rfl⟩

theorem dependentsOf_cons {a : ServiceConfig} {rest : List ServiceConfig}
    {d : String} (ha : a.depends_on.Nodup) :
    dependentsOf (a :: rest) d
      = (if d ∈ a.depends_on then [a.name] else []) ++ dependentsOf rest d := by
  rw [dependentsOf, List.flatMap_cons, filter_beq_of_nodup ha]
  rw [show (rest.flatMap fun s =>
    (s.depends_on.filter (fun x => x == d)).map (fun _ => s.name))
      = dependentsOf rest d from rfl]
  split <;> simp

theorem dependentsOf_nodup {services : List ServiceConfig}
    (H1 : (services.map (·.name)).Nodup)
    (H3 : ∀ s ∈ services, s.depends_on.Nodup) (d : String) :
    (dependentsOf services d).Nodup := by
  induction services with
  | nil => simp [dependentsOf]
  | cons a rest ih =>
    simp only [List.map_cons, List.nodup_cons] at H1
    rw [dependentsOf_cons (H3 a (List.mem_cons_self a rest))]
    have hrest : (dependentsOf rest d).Nodup :=
      ih H1.2 (fun s hs => H3 s (List.mem_cons_of_mem a hs))
    have hdisj : ∀ x ∈ (if d ∈ a.depends_on then [a.name] else []),
        x ∉ dependentsOf rest d := by
      intro x hx hmem
      have hxa : x = a.name := by
        by_cases hd : d ∈ a.depends_on <;> simp [hd] at hx
        · exact hx
      obtain ⟨s, hs, hname, _⟩ := mem_dependentsOf.mp hmem
      exact H1.1 (by rw [← hxa, ← hname] at *; exact List.mem_map_of_mem _ hs)
    rw [List.nodup_append]
    refine ⟨?_, hrest, hdisj⟩
    by_cases hd : d ∈ a.depends_on <;> simp [hd]

/-! ## Dependency resolver: processing a dequeued node -/

theorem processDeps_fst {l : List String} (hl : l.Nodup)
    (indeg : String → Int) (x : String) :
    (processDeps indeg l).1 x = if x ∈ l then indeg x - 1 else indeg x := by
  induction l generalizing indeg with
  | nil => simp [processDeps]
  | cons d rest ih =>
    simp only [List.nodup_cons] at hl
    show (processDeps (fun y => if y = d then indeg d - 1 else indeg y) rest).1 x
      = if x ∈ d :: rest then indeg x - 1 else indeg x
    rw [ih hl.2]
    by_cases hx : x = d
    · subst hx
      simp [hl.1]
    · by_cases hr : x ∈ rest <;> simp [hx, hr]

theorem processDeps_snd {l : List String} (hl : l.Nodup)
    (indeg : String → Int) :
    (processDeps indeg l).2 = l.filter (fun x => decide (indeg x = 1)) := by
  induction l generalizing indeg with
  | nil => rfl
  | cons d rest ih =>
    simp only [List.nodup_cons] at hl
    show (if indeg d - 1 = 0 then
        d :: (processDeps (fun y => if y = d then indeg d - 1 else indeg y) rest).2
      else (processDeps (fun y => if y = d then indeg d - 1 else indeg y) rest).2)
      = (d :: rest).filter (fun x => decide (indeg x = 1))
    rw [ih hl.2]
    have hfil : rest.filter
        (fun x => decide ((if x = d then indeg d - 1 else indeg x) = 1))
        = rest.filter (fun x => decide (indeg x = 1)) := by
      apply List.filter_congr
      intro x hx
      have hxd : x ≠ d := fun he => hl.1 (he ▸ hx)
      simp [hxd]
    rw [hfil]
    by_cases hv : indeg d - 1 = 0
    · have h1 : indeg d = 1 := by omega
      rw [if_pos hv, List.filter_cons_of_pos (by simp [h1])]
    · have h1 : ¬(indeg d = 1) := by omega
      rw [if_neg hv, List.filter_cons_of_neg (by simp [h1])]

theorem length_filter_ne {L : List String} (h : L.Nodup) (m : String) :
    (L.filter (fun d => !(decide (d = m)))).length
      = L.length - (if m ∈ L then 1 else 0) := by
  induction L with
  | nil => simp
  | cons x xs ih =>
    simp only [List.nodup_cons] at h
    by_cases hx : x = m
    · subst hx
      rw [List.filter_cons_of_neg (by simp)]
      have hnm : x ∉ xs := h.1
      rw [ih h.2, if_neg hnm, if_pos (List.mem_cons_self x xs)]
      simp
    · rw [List.filter_cons_of_pos (by simp [hx])]
      simp only [List.length_cons, ih h.2]
      have hmx : (m ∈ x :: xs) ↔ (m ∈ xs) :=
        ⟨fun hm => (List.mem_cons.mp hm).elim
          (fun he => absurd he.symm hx) id,
         List.mem_cons_of_mem x⟩
      rw [if_congr hmx rfl rfl]
      have hle : (xs.filter (fun d => !(decide (d = m)))).length ≤ xs.length :=
        List.length_filter_le _ _
      by_cases hm : m ∈ xs
      · rw [if_pos hm]
        have : 1 ≤ xs.length := List.length_pos.mpr (List.ne_nil_of_mem hm)
        omega
      · rw [if_neg hm]
        omega

/-! ## Dependency resolver: the loop invariant is preserved -/

theorem kinv_step {services : List ServiceConfig}
    (H1 : (services.map (·.name)).Nodup)
    (H3 : ∀ s ∈ services, s.depends_on.Nodup)
    {m : String} {rest : List String} {indeg : String → Int}
    {order : List String}
    (inv : KInv services (m :: rest) indeg order) :
    KInv services
      (rest ++ sortStrings (processDeps indeg (dependentsOf services m)).2)
      (processDeps indeg (dependentsOf services m)).1
      (order ++ [m]) := by
  have hDnd : (dependentsOf services m).Nodup := dependentsOf_nodup H1 H3 m
  have hfst := processDeps_fst hDnd indeg
  have hsnd := processDeps_snd hDnd indeg
  have hnd := inv.nodup
  rw [List.nodup_append] at hnd
  obtain ⟨hOrderNodup, hmrestNodup, hdisj⟩ := hnd
  have hmNotOrder : m ∉ order := fun hm => hdisj hm (List.mem_cons_self m rest)
  have hmNotRest : m ∉ rest := (List.nodup_cons.mp hmrestNodup).1
  have hrestNodup : rest.Nodup := (List.nodup_cons.mp hmrestNodup).2
  have hDepIff : ∀ s ∈ services,
      (s.name ∈ dependentsOf services m ↔ m ∈ s.depends_on) := by
    intro s hs
    rw [mem_dependentsOf]
    constructor
    · rintro ⟨t, ht, hname, hmt⟩
      have hts := name_inj H1 ht hs hname
      exact hts ▸ hmt
    · intro hm
      exact ⟨s, hs, rfl, hm⟩
  have hdeg_zero_sub : ∀ s ∈ services, indeg s.name = 0 →
      ∀ d ∈ s.depends_on, d ∈ order := by
    intro s hs h0 d hd
    have hdeg := inv.degEq s hs
    rw [h0] at hdeg
    have hlen0 :
        (s.depends_on.filter (fun x => !(decide (x ∈ order)))).length = 0 := by
      exact_mod_cast hdeg.symm
    rw [List.length_eq_zero] at hlen0
    by_contra hdo
    have hmem : d ∈ s.depends_on.filter (fun x => !(decide (x ∈ order))) := by
      rw [List.mem_filter]
      exact ⟨hd, by simp [hdo]⟩
    rw [hlen0] at hmem
    simp at hmem
  have hZeroNotD : ∀ n, indeg n = 0 → n ∉ dependentsOf services m := by
    intro n h0 hnD
    obtain ⟨s, hs, rfl, hmdep⟩ := mem_dependentsOf.mp hnD
    exact hmNotOrder (hdeg_zero_sub s hs h0 m hmdep)
  have hOrdZero : ∀ s ∈ services, s.name ∈ order → indeg s.name = 0 := by
    intro s hs hmem
    obtain ⟨i, hi, hgi⟩ := List.mem_iff_getElem.mp hmem
    have hdeps := inv.topo i hi s hs hgi
    have hnil : s.depends_on.filter (fun d => !(decide (d ∈ order))) = [] := by
      rw [List.filter_eq_nil_iff]
      intro d hd
      simp [List.take_subset i order (hdeps d hd)]
    rw [inv.degEq s hs, hnil]
    rfl
  have hBatch : ∀ x, x ∈ (processDeps indeg (dependentsOf services m)).2
      ↔ x ∈ dependentsOf services m ∧ indeg x = 1 := by
    intro x
    rw [hsnd, List.mem_filter]
    simp
  have hBatchNodup : (processDeps indeg (dependentsOf services m)).2.Nodup := by
    rw [hsnd]
    exact hDnd.filter _
  have hBatchNotOrder :
      ∀ x ∈ (processDeps indeg (dependentsOf services m)).2, x ∉ order := by
    intro x hx hxo
    obtain ⟨hxD, hx1⟩ := (hBatch x).mp hx
    obtain ⟨s, hs, rfl, _⟩ := mem_dependentsOf.mp hxD
    rw [hOrdZero s hs hxo] at hx1
    exact absurd hx1 (by norm_num)
  have hBatchNotQueue :
      ∀ x ∈ (processDeps indeg (dependentsOf services m)).2, x ∉ m :: rest := by
    intro x hx hxq
    obtain ⟨_, hx1⟩ := (hBatch x).mp hx
    rw [inv.queueZero x hxq] at hx1
    exact absurd hx1 (by norm_num)
  constructor
  case nodup =>
    rw [show (order ++ [m]) ++ (rest ++
        sortStrings (processDeps indeg (dependentsOf services m)).2)
      = order ++ (m :: (rest ++
        sortStrings (processDeps indeg (dependentsOf services m)).2)) by simp]
    rw [List.nodup_append]
    refine ⟨hOrderNodup, ?_, ?_⟩
    · rw [List.nodup_cons]
      constructor
      · intro hm
        rcases List.mem_append.mp hm with hm1 | hm1
        · exact hmNotRest hm1
        · exact hBatchNotQueue m (mem_sortStrings.mp hm1)
            (List.mem_cons_self m rest)
      · rw [List.nodup_append]
        refine ⟨hrestNodup, sortStrings_nodup hBatchNodup, ?_⟩
        intro x hx1 hx2
        exact hBatchNotQueue x (mem_sortStrings.mp hx2)
          (List.mem_cons_of_mem m hx1)
    · intro x hxo hxq
      rcases List.mem_cons.mp hxq with rfl | hxq'
      · exact hmNotOrder hxo
      · rcases List.mem_append.mp hxq' with hm1 | hm1
        · exact hdisj hxo (List.mem_cons_of_mem m hm1)
        · exact hBatchNotOrder x (mem_sortStrings.mp hm1) hxo
  case subset =>
    intro n hn
    rcases List.mem_append.mp hn with hn1 | hn1
    · rcases List.mem_append.mp hn1 with hn2 | hn2
      · exact inv.subset n (List.mem_append.mpr (Or.inl hn2))
      · have : n = m := by simpa using hn2
        exact this ▸ inv.subset m
          (List.mem_append.mpr (Or.inr (List.mem_cons_self m rest)))
    · rcases List.mem_append.mp hn1 with hn2 | hn2
      · exact inv.subset n
          (List.mem_append.mpr (Or.inr (List.mem_cons_of_mem m hn2)))
      · obtain ⟨hxD, _⟩ := (hBatch n).mp (mem_sortStrings.mp hn2)
        obtain ⟨s, hs, rfl, _⟩ := mem_dependentsOf.mp hxD
        exact mem_nodesOf.mpr ⟨s, hs, rfl⟩
  case degEq =>
    intro s hs
    rw [hfst s.name]
    have hsplit : s.depends_on.filter (fun d => !(decide (d ∈ order ++ [m])))
        = (s.depends_on.filter
            (fun d => !(decide (d ∈ order)))).filter
              (fun d => !(decide (d = m))) := by
      rw [List.filter_filter]
      apply List.filter_congr
      intro d _
      by_cases h1 : d ∈ order <;> by_cases h2 : d = m <;>
        simp [h1, h2, List.mem_append]
    rw [hsplit]
    have hLnodup : (s.depends_on.filter
        (fun d => !(decide (d ∈ order)))).Nodup := (H3 s hs).filter _
    rw [length_filter_ne hLnodup m]
    have hmL : m ∈ s.depends_on.filter (fun d => !(decide (d ∈ order)))
        ↔ m ∈ s.depends_on := by
      rw [List.mem_filter]
      simp [hmNotOrder]
    by_cases hm : m ∈ s.depends_on
    · rw [if_pos (hmL.mpr hm), if_pos ((hDepIff s hs).mpr hm)]
      rw [inv.degEq s hs]
      have hpos : 1 ≤ (s.depends_on.filter
          (fun d => !(decide (d ∈ order)))).length :=
        List.length_pos.mpr (List.ne_nil_of_mem (hmL.mpr hm))
      omega
    · rw [if_neg (fun hc => hm (hmL.mp hc)),
        if_neg (fun hc => hm ((hDepIff s hs).mp hc))]
      rw [inv.degEq s hs]
      omega
  case queueZero =>
    intro n hn
    rw [hfst n]
    rcases List.mem_append.mp hn with hn1 | hn1
    · have h0 : indeg n = 0 := inv.queueZero n (List.mem_cons_of_mem m hn1)
      rw [if_neg (hZeroNotD n h0)]
      exact h0
    · obtain ⟨hnD, hn1eq⟩ := (hBatch n).mp (mem_sortStrings.mp hn1)
      rw [if_pos hnD]
      omega
  case complete =>
    intro s hs hno hnq
    have hnoOrder : s.name ∉ order := fun h =>
      hno (List.mem_append.mpr (Or.inl h))
    have hnem : s.name ≠ m := fun h =>
      hno (List.mem_append.mpr (Or.inr (by simp [h])))
    have hnoRest : s.name ∉ rest := fun h =>
      hnq (List.mem_append.mpr (Or.inl h))
    have hnoB : s.name ∉ (processDeps indeg (dependentsOf services m)).2 :=
      fun h => hnq (List.mem_append.mpr (Or.inr (mem_sortStrings.mpr h)))
    have hold : indeg s.name ≠ 0 := inv.complete s hs hnoOrder
      (fun h => (List.mem_cons.mp h).elim hnem hnoRest)
    rw [hfst s.name]
    by_cases hD : s.name ∈ dependentsOf services m
    · rw [if_pos hD]
      intro hc
      have h1 : indeg s.name = 1 := by omega
      exact hnoB ((hBatch s.name).mpr ⟨hD, h1⟩)
    · rw [if_neg hD]
      exact hold
  case topo =>
    intro i hi s hs hgi d hd
    by_cases hlt : i < order.length
    · have hglt : (order ++ [m])[i] = order[i] := List.getElem_append_left hlt
      rw [List.take_append_of_le_length (Nat.le_of_lt hlt)]
      exact inv.topo i hlt s hs (by rw [← hglt]; exact hgi) d hd
    · have hieq : i = order.length := by
        simp only [List.length_append, List.length_cons, List.length_nil] at hi
        omega
      have hgm : (order ++ [m])[i] = m :=
        List.getElem_concat_length order m i hieq _
      have hsm : s.name = m := by rw [← hgi, hgm]
      have h0 : indeg s.name = 0 := by
        rw [hsm]
        exact inv.queueZero m (List.mem_cons_self m rest)
      have hsub := hdeg_zero_sub s hs h0 d hd
      rw [hieq, List.take_left]
      exact hsub

theorem kinv_init {services : List ServiceConfig}
    (H1 : (services.map (·.name)).Nodup) :
    KInv services
      (sortStrings ((nodesOf services).filter
        (fun n => decide (indeg0 services n = 0))))
      (indeg0 services) [] := by
  constructor
  case nodup =>
    rw [List.nil_append]
    exact sortStrings_nodup ((nodesOf_nodup services).filter _)
  case subset =>
    intro n hn
    rw [List.nil_append] at hn
    exact List.mem_of_mem_filter (mem_sortStrings.mp hn)
  case degEq =>
    intro s hs
    rw [indeg0_eq H1 hs]
    congr 1
    rw [show s.depends_on.filter (fun d => !(decide (d ∈ ([] : List String))))
      = s.depends_on from by simp]
  case queueZero =>
    intro n hn
    have := (List.mem_filter.mp (mem_sortStrings.mp hn)).2
    simpa using this
  case complete =>
    intro s hs _ hnq
    intro h0
    apply hnq
    rw [mem_sortStrings, List.mem_filter]
    exact ⟨mem_nodesOf.mpr ⟨s, hs, rfl⟩, by simp [h0]⟩
  case topo =>
    intro i hi
    simp at hi

theorem nodup_subset_length {l1 l2 : List String} (h1 : l1.Nodup)
    (hsub : ∀ a ∈ l1, a ∈ l2) : l1.length ≤ l2.length := by
  have hc1 : l1.toFinset.card = l1.length := List.toFinset_card_of_nodup h1
  have hc2 : l2.toFinset.card ≤ l2.length := List.toFinset_card_le l2
  have hsub' : l1.toFinset ⊆ l2.toFinset := by
    intro a ha
    rw [List.mem_toFinset] at ha ⊢
    exact hsub a ha
  have := Finset.card_le_card hsub'
  omega

theorem kahnLoop_spec {services : List ServiceConfig}
    (H1 : (services.map (·.name)).Nodup)
    (H3 : ∀ s ∈ services, s.depends_on.Nodup) :
    ∀ (fuel : Nat) (queue : List String) (indeg : String → Int)
      (order : List String),
      KInv services queue indeg order →
      (nodesOf services).length + 1 - order.length ≤ fuel →
      ∃ indegF,
        KInv services [] indegF
          (kahnLoop (dependentsOf services) fuel queue indeg order) := by
  intro fuel
  induction fuel with
  | zero =>
    intro queue indeg order inv hfuel
    exfalso
    have hnodup : order.Nodup := (List.nodup_append.mp inv.nodup).1
    have hsub : ∀ a ∈ order, a ∈ nodesOf services := fun a ha =>
      inv.subset a (List.mem_append.mpr (Or.inl ha))
    have := nodup_subset_length hnodup hsub
    omega
  | succ fuel ih =>
    intro queue indeg order inv hfuel
    cases queue with
    | nil =>
      exact ⟨indeg, inv⟩
    | cons m rest =>
      rw [show kahnLoop (dependentsOf services) (fuel + 1) (m :: rest) indeg order
        = kahnLoop (dependentsOf services) fuel
            (rest ++ sortStrings
              (processDeps indeg (dependentsOf services m)).2)
            (processDeps indeg (dependentsOf services m)).1
            (order ++ [m]) from rfl]
      apply ih _ _ _ (kinv_step H1 H3 inv)
      have hlen : (order ++ m :: rest).length ≤ (nodesOf services).length := by
        apply nodup_subset_length inv.nodup inv.subset
      simp only [List.length_append, List.length_cons] at hlen
      simp only [List.length_append, List.length_cons, List.length_nil]
      omega

theorem kahnOrder_spec {services : List ServiceConfig}
    (H1 : (services.map (·.name)).Nodup)
    (H3 : ∀ s ∈ services, s.depends_on.Nodup) :
    ∃ indegF, KInv services [] indegF (kahnOrder services) := by
  have hnl : (nodesOf services).length ≤ services.length := by
    have h1 := (List.dedup_sublist (services.map (·.name))).length_le
    rw [List.length_map] at h1
    exact h1
  exact kahnLoop_spec H1 H3 (2 * services.length + 2) _ _ [] (kinv_init H1)
    (by simp; omega)

/-! ## Dependency resolver: properties of the produced order -/

theorem kahnOrder_props {services : List ServiceConfig}
    (H1 : (services.map (·.name)).Nodup)
    (H3 : ∀ s ∈ services, s.depends_on.Nodup) :
    (kahnOrder services).Nodup
  ∧ (∀ n ∈ kahnOrder services, n ∈ nodesOf services)
  ∧ (∀ (i : Nat) (h : i < (kahnOrder services).length), ∀ s ∈ services,
      (kahnOrder services)[i] = s.name →
      ∀ d ∈ s.depends_on, d ∈ (kahnOrder services).take i)
  ∧ (∀ s ∈ services, s.name ∉ kahnOrder services →
      ∃ d ∈ s.depends_on, d ∉ kahnOrder services) := by
  obtain ⟨indegF, inv⟩ := kahnOrder_spec H1 H3
  refine ⟨?_, ?_, inv.topo, ?_⟩
  · have h := inv.nodup
    simpa using h
  · intro n hn
    exact inv.subset n (by simpa using hn)
  · intro s hs hno
    have hne := inv.complete s hs hno (by simp)
    rw [inv.degEq s hs] at hne
    have hnil : s.depends_on.filter
        (fun d => !(decide (d ∈ kahnOrder services))) ≠ [] := by
      intro hc
      rw [hc] at hne
      simp at hne
    obtain ⟨d, hd⟩ := List.exists_mem_of_ne_nil _ hnil
    obtain ⟨hd1, hd2⟩ := List.mem_filter.mp hd
    exact ⟨d, hd1, by simpa using hd2⟩

theorem indexOf_lt_of_mem_take {l : List String} {a : String} {i : Nat}
    (h : a ∈ l.take i) : l.indexOf a < i := by
  induction l generalizing i with
  | nil => simp at h
  | cons x xs ih =>
    cases i with
    | zero => simp at h
    | succ j =>
      rw [List.take_succ_cons] at h
      by_cases hxa : x = a
      · simp [List.indexOf_cons, hxa]
      · rcases List.mem_cons.mp h with rfl | h'
        · exact absurd rfl hxa
        · have hih := ih h'
          have hbeq : (x == a) = false := by simp [hxa]
          simp only [List.indexOf_cons, hbeq, cond_false]
          omega

theorem mem_kahnOrder_of_complete {services : List ServiceConfig}
    (H1 : (services.map (·.name)).Nodup)
    (H3 : ∀ s ∈ services, s.depends_on.Nodup)
    (hlen : (kahnOrder services).length = services.length) :
    ∀ n ∈ nodesOf services, n ∈ kahnOrder services := by
  obtain ⟨hnodup, hsub, -, -⟩ := kahnOrder_props H1 H3
  intro n hn
  have hfs : (kahnOrder services).toFinset ⊆ (nodesOf services).toFinset := by
    intro a ha
    rw [List.mem_toFinset] at ha ⊢
    exact hsub a ha
  have hc1 : (kahnOrder services).toFinset.card = (kahnOrder services).length :=
    List.toFinset_card_of_nodup hnodup
  have hc2 : (nodesOf services).toFinset.card = (nodesOf services).length :=
    List.toFinset_card_of_nodup (nodesOf_nodup _)
  have hle : (nodesOf services).toFinset.card
      ≤ (kahnOrder services).toFinset.card := by
    rw [hc1, hc2, hlen, nodesOf_length H1]
  have heq := Finset.eq_of_subset_of_card_le hfs hle
  rw [← List.mem_toFinset, ← heq, List.mem_toFinset] at hn
  exact hn

theorem no_cycle_of_complete {services : List ServiceConfig}
    (H1 : (services.map (·.name)).Nodup)
    (H3 : ∀ s ∈ services, s.depends_on.Nodup)
    (hlen : (kahnOrder services).length = services.length) :
    ¬HasCycle services := by
  rintro ⟨f, k, hk, hedge, hclose⟩
  obtain ⟨hnodup, hsub, htopo, -⟩ := kahnOrder_props H1 H3
  have hmem := mem_kahnOrder_of_complete H1 H3 hlen
  have hfmem : ∀ i, i < k → f i ∈ kahnOrder services := by
    intro i hi
    obtain ⟨s, hs, hname, -⟩ := hedge i hi
    rw [← hname]
    exact hmem s.name (mem_nodesOf.mpr ⟨s, hs, rfl⟩)
  have hdec : ∀ i, i < k →
      (kahnOrder services).indexOf (f (i + 1))
        < (kahnOrder services).indexOf (f i) := by
    intro i hi
    obtain ⟨s, hs, hname, hdep⟩ := hedge i hi
    have hfi : f i ∈ kahnOrder services := hfmem i hi
    have hlt : (kahnOrder services).indexOf (f i)
        < (kahnOrder services).length := List.indexOf_lt_length.mpr hfi
    have hgi : (kahnOrder services)[(kahnOrder services).indexOf (f i)] = f i :=
      List.getElem_indexOf hlt
    have htake := htopo _ hlt s hs (by rw [hgi, ← hname]) (f (i + 1)) hdep
    exact indexOf_lt_of_mem_take htake
  have hmono : ∀ t, t ≤ k →
      (kahnOrder services).indexOf (f t) + t
        ≤ (kahnOrder services).indexOf (f 0) := by
    intro t
    induction t with
    | zero => intro _; omega
    | succ j ihj =>
      intro hjk
      have h1 := ihj (by omega)
      have h2 := hdec j (by omega)
      omega
  have hfinal := hmono k (le_refl k)
  rw [hclose] at hfinal
  omega

theorem mem_kahnOrder_of_not_hasCycle {services : List ServiceConfig}
    (H1 : (services.map (·.name)).Nodup)
    (H2 : ∀ s ∈ services, ∀ d ∈ s.depends_on, ∃ t ∈ services, t.name = d)
    (H3 : ∀ s ∈ services, s.depends_on.Nodup)
    (hnc : ¬HasCycle services) :
    ∀ n ∈ nodesOf services, n ∈ kahnOrder services := by
  by_contra hc
  push_neg at hc
  obtain ⟨n0, hn0nodes, hn0no⟩ := hc
  have hn0R : n0 ∈ (nodesOf services).filter
      (fun n => !(decide (n ∈ kahnOrder services))) := by
    rw [List.mem_filter]
    exact ⟨hn0nodes, by simp [hn0no]⟩
  obtain ⟨-, -, -, hstuck⟩ := kahnOrder_props H1 H3
  have hF : ∀ x ∈ (nodesOf services).filter
      (fun n => !(decide (n ∈ kahnOrder services))),
      ∃ y, y ∈ (nodesOf services).filter
        (fun n => !(decide (n ∈ kahnOrder services)))
        ∧ DependsOn services x y := by
    intro x hx
    obtain ⟨hxN, hxno⟩ := List.mem_filter.mp hx
    have hxno' : x ∉ kahnOrder services := by simpa using hxno
    obtain ⟨s, hs, rfl⟩ := mem_nodesOf.mp hxN
    obtain ⟨d, hd, hdno⟩ := hstuck s hs hxno'
    obtain ⟨t, ht, htd⟩ := H2 s hs d hd
    refine ⟨d, ?_, ⟨s, hs, rfl, hd⟩⟩
    rw [List.mem_filter]
    exact ⟨mem_nodesOf.mpr ⟨t, ht, htd⟩, by simp [hdno]⟩
  choose nxt hnxtR hnxtD using hF
  let R := (nodesOf services).filter
    (fun n => !(decide (n ∈ kahnOrder services)))
  let g : Nat → {x : String // x ∈ R} := fun k =>
    Nat.rec ⟨n0, hn0R⟩ (fun _ p => ⟨nxt p.1 p.2, hnxtR p.1 p.2⟩) k
  have hgstep : ∀ k, DependsOn services (g k).1 (g (k + 1)).1 := fun k =>
    hnxtD (g k).1 (g k).2
  have hcycle : ∀ (i j : Nat), i < j → (g i).1 = (g j).1 →
      HasCycle services := by
    intro i j hij heq
    refine ⟨fun t => (g (i + t)).1, j - i, by omega, ?_, ?_⟩
    · intro t _
      exact hgstep (i + t)
    · have h1 : i + (j - i) = j := by omega
      show (g (i + (j - i))).1 = (g (i + 0)).1
      rw [h1, Nat.add_zero]
      exact heq.symm
  have hmaps : ∀ a ∈ Finset.range (R.length + 1), (g a).1 ∈ R.toFinset := by
    intro a _
    rw [List.mem_toFinset]
    exact (g a).2
  have hcard : R.toFinset.card < (Finset.range (R.length + 1)).card := by
    rw [Finset.card_range]
    have := List.toFinset_card_le R
    omega
  obtain ⟨i, _, j, _, hne, heq⟩ :=
    Finset.exists_ne_map_eq_of_card_lt_of_maps_to hcard hmaps
  rcases Nat.lt_or_ge i j with hij | hij
  · exact hnc (hcycle i j hij heq)
  · have hji : j < i := by omega
    exact hnc (hcycle j i hji heq.symm)

theorem findUnknownDep_eq_none {services : List ServiceConfig}
    (H2 : ∀ s ∈ services, ∀ d ∈ s.depends_on, ∃ t ∈ services, t.name = d) :
    findUnknownDep services = none := by
  rw [findUnknownDep, List.findSome?_eq_none_iff]
  intro s hs
  rw [List.findSome?_eq_none_iff]
  intro d hd
  obtain ⟨t, ht, htd⟩ := H2 s hs d hd
  have hany : services.any (fun t => t.name == d) = true := by
    rw [List.any_eq_true]
    exact ⟨t, ht, by simp [htd]⟩
  simp [hany]

/-! ## Claim theorems -/

/-- Claim C1: for every list of service configs whose names are unique,
whose depends_on entries (sets of names, hence duplicate-free) all name
services in the list, and whose depends_on relation is acyclic (no closed
walk), `resolve_start_order` returns a list containing every input name
exactly once, in which each name appears strictly after every name in its
depends_on set. -/
theorem resolve_start_order_acyclic_correct
    {services : List ServiceConfig}
    (H1 : (services.map (·.name)).Nodup)
    (H2 : ∀ s ∈ services, ∀ d ∈ s.depends_on, ∃ t ∈ services, t.name = d)
    (H3 : ∀ s ∈ services, s.depends_on.Nodup)
    (H4 : ¬HasCycle services) :
    ∃ ord, resolve_start_order services = .ok ord
      ∧ ord.Perm (services.map (·.name))
      ∧ (∀ n ∈ services.map (·.name), ord.count n = 1)
      ∧ (∀ s ∈ services, ∀ d ∈ s.depends_on,
          ord.indexOf d < ord.indexOf s.name) := by
  obtain ⟨hnodup, hsub, htopo, -⟩ := kahnOrder_props H1 H3
  have hmem := mem_kahnOrder_of_not_hasCycle H1 H2 H3 H4
  have hperm : (kahnOrder services).Perm (services.map (·.name)) := by
    rw [List.perm_ext_iff_of_nodup hnodup H1]
    intro a
    constructor
    · intro ha
      obtain ⟨s, hs, rfl⟩ := mem_nodesOf.mp (hsub a ha)
      exact List.mem_map_of_mem _ hs
    · intro ha
      apply hmem
      obtain ⟨s, hs, hname⟩ := List.mem_map.mp ha
      exact mem_nodesOf.mpr ⟨s, hs, hname⟩
  have hlen : (kahnOrder services).length = services.length := by
    rw [hperm.length_eq, List.length_map]
  refine ⟨kahnOrder services, ?_, hperm, ?_, ?_⟩
  · have hval := findUnknownDep_eq_none H2
    simp only [resolve_start_order, hval]
    simp [hlen]
  · intro n hn
    rw [hperm.count_eq]
    exact List.count_eq_one_of_mem H1 hn
  · intro s hs d hd
    have hsname : s.name ∈ kahnOrder services :=
      hperm.mem_iff.mpr (List.mem_map_of_mem _ hs)
    have hlt : (kahnOrder services).indexOf s.name
        < (kahnOrder services).length := List.indexOf_lt_length.mpr hsname
    have hgi := List.getElem_indexOf hlt
    have htake := htopo _ hlt s hs hgi d hd
    exact indexOf_lt_of_mem_take htake

/-- Claim C1 witness: the theorem applied to the concrete acyclic input
`chainInput` (`b` depends on `a`). -/
theorem resolve_start_order_acyclic_correct_witness :
    ∃ ord, resolve_start_order chainInput = .ok ord
      ∧ ord.Perm (chainInput.map (·.name))
      ∧ (∀ n ∈ chainInput.map (·.name), ord.count n = 1)
      ∧ (∀ s ∈ chainInput, ∀ d ∈ s.depends_on,
          ord.indexOf d < ord.indexOf s.name) := by
  apply resolve_start_order_acyclic_correct (by decide) (by decide) (by decide)
  rintro ⟨f, k, hk, hedge, hclose⟩
  obtain ⟨s, hs, hname, hdep⟩ := hedge 0 hk
  simp only [chainInput, List.mem_cons, List.not_mem_nil, or_false] at hs
  rcases hs with rfl | rfl
  · simp only [List.mem_singleton] at hdep
    have h1a : f 1 = "a" := hdep
    match k, hk with
    | 1, _ =>
      have h0b : f 0 = "b" := hname.symm
      have hab : ("a" : String) = "b" := by rw [← h1a, hclose, h0b]
      exact absurd hab (by decide)
    | (n + 2), _ =>
      obtain ⟨t, ht, hname1, hdep1⟩ := hedge 1 (by omega)
      simp only [chainInput, List.mem_cons, List.not_mem_nil, or_false] at ht
      rcases ht with rfl | rfl
      · have h1b : f 1 = "b" := hname1.symm
        rw [h1b] at h1a
        exact absurd h1a (by decide)
      · simp at hdep1
  · simp at hdep

/-- Claim C5: for every input whose names are unique and whose depends_on
entries (sets) are all known, if some services participate in a dependency
cycle then `resolve_start_order` fails with a circular-dependency error
listing exactly the set difference between all names and the partial order
the Kahn loop produced, and never returns an `ok` order. -/
theorem resolve_start_order_cycle_error
    {services : List ServiceConfig}
    (H1 : (services.map (·.name)).Nodup)
    (H2 : ∀ s ∈ services, ∀ d ∈ s.depends_on, ∃ t ∈ services, t.name = d)
    (H3 : ∀ s ∈ services, s.depends_on.Nodup)
    (hcyc : HasCycle services) :
    resolve_start_order services = .error (.circularDependency
      ((nodesOf services).filter
        (fun n => !(decide (n ∈ kahnOrder services)))))
    ∧ ∀ x, x ∈ (nodesOf services).filter
        (fun n => !(decide (n ∈ kahnOrder services)))
        ↔ x ∈ nodesOf services ∧ x ∉ kahnOrder services := by
  constructor
  · have hval := findUnknownDep_eq_none H2
    have hne : ¬((kahnOrder services).length = services.length) := fun hlen =>
      no_cycle_of_complete H1 H3 hlen hcyc
    simp only [resolve_start_order, hval]
    simp [hne]
  · intro x
    rw [List.mem_filter]
    simp

/-- Claim C5 witness: the theorem applied to the concrete mutual cycle
`cycleInput` (`a` depends on `b`, `b` depends on `a`). -/
theorem resolve_start_order_cycle_error_witness :
    resolve_start_order cycleInput
      = .error (.circularDependency
        ((nodesOf cycleInput).filter
          (fun n => !(decide (n ∈ kahnOrder cycleInput)))))
    ∧ ∀ x, x ∈ (nodesOf cycleInput).filter
          (fun n => !(decide (n ∈ kahnOrder cycleInput)))
        ↔ x ∈ nodesOf cycleInput ∧ x ∉ kahnOrder cycleInput := by
  apply resolve_start_order_cycle_error (by decide) (by decide) (by decide)
  refine ⟨fun i => if i % 2 = 0 then "a" else "b", 2, by omega, ?_, by decide⟩
  intro i hi
  match i, hi with
  | 0, _ =>
    refine ⟨{ name := "a", exec := "/usr/bin/a", depends_on := ["b"] },
      by decide, by decide, by decide⟩
  | 1, _ =>
    refine ⟨{ name := "b", exec := "/usr/bin/b", depends_on := ["a"] },
      by decide, by decide, by decide⟩

/-- Claim C2: the restart decision applied by `reap` to every exited
service: a Oneshot service is never restarted under any policy; a Simple
service with Always is always restarted; with OnFailure exactly when the
exit was a failure; with Never, never. -/
theorem should_restart_decision_table :
    ∀ (policy : RestartPolicy) (success : Bool),
      should_restart policy .oneshot success = false
    ∧ should_restart .always .simple success = true
    ∧ should_restart .onFailure .simple success = !success
    ∧ should_restart .never .simple success = false := by
  intro policy success
  refine ⟨?_, rfl, rfl, rfl⟩
  cases policy <;> rfl

/-- Claim C3: over every reachable `ServiceManager` state, the
restart_count of every tracked service never exceeds `MAX_RESTART_COUNT`;
and a Simple/OnFailure service whose process always exits with failure is
still Running with restart_count 5 after five supervision cycles and is
moved to Finished on the sixth failing exit. -/
theorem restart_count_bounded :
    (∀ m, Reachable m → ∀ p ∈ m.running,
      p.2.restart_count ≤ MAX_RESTART_COUNT)
  ∧ (reapAllFail^[5] (start_service .new failingCfg none).1).state "svc"
      = .running
  ∧ lookupA "svc" (reapAllFail^[5] (start_service .new failingCfg none).1).running
      = some ⟨failingCfg, 5⟩
  ∧ (reapAllFail^[6] (start_service .new failingCfg none).1).state "svc"
      = .finished := by
  refine ⟨?_, by decide, by decide, by decide⟩
  intro m hm
  exact reachable_count_le hm

/-- Claim C3 witness: the bound applied to the concrete reachable state
obtained by starting `failingCfg` in a new manager. -/
theorem restart_count_bounded_witness :
    ("svc", (⟨failingCfg, 0⟩ : RunningService)).2.restart_count
      ≤ MAX_RESTART_COUNT :=
  restart_count_bounded.1 (start_service .new failingCfg none).1
    (Reachable.start ServiceManager.new failingCfg none Reachable.new)
    ("svc", ⟨failingCfg, 0⟩) (by decide)

/-- Claim C4: `stop_service` on a Running service returns success, removes
it from the running table and moves it to Finished, regardless of its
restart policy; on a service that is already Finished or Stopped it leaves
the manager unchanged and still returns success. -/
theorem stop_service_spec :
    ∀ (m : ServiceManager) (name : String),
      (m.state name = .running →
        (stop_service m name).2 = .ok ()
        ∧ lookupA name (stop_service m name).1.running = none
        ∧ (stop_service m name).1.state name = .finished)
    ∧ (m.state name ≠ .running → stop_service m name = (m, .ok ())) := by
  intro m name
  constructor
  · intro hrun
    have hsome : (lookupA name m.running).isSome := by
      by_contra hns
      rw [ServiceManager.state, if_neg hns] at hrun
      split at hrun <;> simp at hrun
    obtain ⟨svc, hsvc⟩ := Option.isSome_iff_exists.mp hsome
    refine ⟨?_, ?_, ?_⟩ <;>
      simp [stop_service, hsvc, ServiceManager.state, lookupA_eraseA_self,
        lookupA_insertA_self]
  · intro hnrun
    have hnone : lookupA name m.running = none := by
      cases hl : lookupA name m.running with
      | none => rfl
      | some svc =>
        exfalso
        apply hnrun
        rw [ServiceManager.state, if_pos (by simp [hl])]
    simp only [stop_service, hnone]

/-- Claim C4 witness: the theorem applied to a concrete manager in which
`"s"` is Running (first branch) and `"other"` is Stopped (second). -/
theorem stop_service_spec_witness :
    ((stop_service (start_service ServiceManager.new neverCfg none).1 "s").1.state
        "s" = .finished)
  ∧ (stop_service (start_service ServiceManager.new neverCfg none).1 "other"
      = ((start_service ServiceManager.new neverCfg none).1, .ok ())) :=
  ⟨((stop_service_spec (start_service ServiceManager.new neverCfg none).1
      "s").1 (by decide)).2.2,
   (stop_service_spec (start_service ServiceManager.new neverCfg none).1
      "other").2 (by decide)⟩

/-- Claim C6: with `{zebra, alpha, middle}` and no dependencies the result
is exactly `[alpha, middle, zebra]`; for the diamond `a→{b,c}, {b,c}→d` the
result is exactly `[a, b, c, d]` — `a` first, `d` last, and `b` before `c`. -/
theorem resolve_start_order_deterministic_ties :
    resolve_start_order
      [{ name := "zebra", exec := "/usr/bin/zebra" },
       { name := "alpha", exec := "/usr/bin/alpha" },
       { name := "middle", exec := "/usr/bin/middle" }]
      = .ok ["alpha", "middle", "zebra"]
  ∧ resolve_start_order
      [{ name := "a", exec := "/usr/bin/a" },
       { name := "b", exec := "/usr/bin/b", depends_on := ["a"] },
       { name := "c", exec := "/usr/bin/c", depends_on := ["a"] },
       { name := "d", exec := "/usr/bin/d", depends_on := ["b", "c"] }]
      = .ok ["a", "b", "c", "d"] := by
  constructor <;> decide

/-- Claim C7: a failed spawn in `start_service` returns an error carrying
the service name and the underlying cause, and leaves the service tables
completely unchanged. -/
theorem start_service_failure_unchanged :
    ∀ (m : ServiceManager) (config : ServiceConfig) (cause : String),
      start_service m config (some cause) = (m, .error ⟨config.name, cause⟩) := by
  intro m config cause
  rfl

/-- Claim C8 counterexample: the claim fails as stated — starting a
service, reaping its successful exit, then starting it again reaches a
state in which `"s"` is present in both the running and the finished
table. -/
theorem running_finished_overlap_counterexample :
    Reachable doubleStart
  ∧ (lookupA "s" doubleStart.running).isSome = true
  ∧ (lookupA "s" doubleStart.finished).isSome = true := by
  refine ⟨?_, by decide, by decide⟩
  exact Reachable.start _ neverCfg none
    (Reachable.reap _ (fun _ => some true) (fun _ => none)
      (Reachable.start ServiceManager.new neverCfg none Reachable.new))

/-- Claim C8 (amended): for every state reachable from
`ServiceManager::new` by sequences of `start_service`, `reap`,
`stop_service` and `stop_all` in which `start_service` is only invoked for
names not currently in the finished table, no name is simultaneously
present in the running table and the finished table. -/
theorem running_finished_disjoint_amended :
    ∀ m, ReachableR m → ∀ n,
      ¬((lookupA n m.running).isSome ∧ (lookupA n m.finished).isSome) := by
  intro m hm
  exact reachableR_disjoint hm

/-- Claim C8 (amended) witness: the invariant applied to the concrete
restricted-reachable state after one successful start. -/
theorem running_finished_disjoint_amended_witness :
    ¬((lookupA "s" (start_service ServiceManager.new neverCfg none).1.running).isSome
    ∧ (lookupA "s" (start_service ServiceManager.new neverCfg none).1.finished).isSome) :=
  running_finished_disjoint_amended (start_service ServiceManager.new neverCfg none).1
    (ReachableR.start ServiceManager.new neverCfg none (by decide) ReachableR.new)
    "s"

/-- Claim C9: the shutdown sequence attempts to unmount exactly the
early-mount targets in strict reverse order of their mount sequence, each
with a detach-style unmount, and attempts every target regardless of the
outcome of the previous ones (failures are non-fatal). -/
theorem unmount_reverse_of_mounts :
    ∀ (outcome : String → Bool),
      ((unmount_filesystems outcome).map (·.1)
        = (EARLY_MOUNTS.map (·.target)).reverse)
    ∧ UNMOUNT_ORDER = (EARLY_MOUNTS.map (·.target)).reverse
    ∧ (∀ e ∈ unmount_filesystems outcome, e.2.1 = UnmountFlag.detach) := by
  intro outcome
  refine ⟨rfl, rfl, ?_⟩
  intro e he
  simp only [unmount_filesystems, UNMOUNT_ORDER, List.map_cons, List.map_nil,
    List.mem_cons, List.not_mem_nil, or_false] at he
  rcases he with rfl | rfl | rfl | rfl | rfl <;> rfl

/-- Claim C9 witness: the theorem applied to the all-succeed outcome, with
the flag conjunct instantiated at the first unmount attempt. -/
theorem unmount_reverse_of_mounts_witness :
    ((unmount_filesystems (fun _ => true)).map (·.1)
      = (EARLY_MOUNTS.map (·.target)).reverse)
  ∧ ("/run", UnmountFlag.detach, true).2.1 = UnmountFlag.detach :=
  ⟨(unmount_reverse_of_mounts (fun _ => true)).1,
   (unmount_reverse_of_mounts (fun _ => true)).2.2
     ("/run", UnmountFlag.detach, true) (by decide)⟩

/-- Claim C10: two service configs sharing a name (with no dependencies at
all, hence an acyclic relation) collapse into one graph node, so
`resolve_start_order` fails with a circular-dependency error whose
participant set is empty, rather than succeeding or reporting a
duplicate-name error. -/
theorem resolve_duplicate_names_spurious_cycle :
    ¬HasCycle [{ name := "dup", exec := "/bin/a" },
               { name := "dup", exec := "/bin/b" }]
  ∧ resolve_start_order [{ name := "dup", exec := "/bin/a" },
      { name := "dup", exec := "/bin/b" }]
      = .error (.circularDependency []) := by
  constructor
  · rintro ⟨f, k, hk, hedge, -⟩
    obtain ⟨s, hs, -, hdep⟩ := hedge 0 hk
    simp only [List.mem_cons, List.not_mem_nil, or_false] at hs
    rcases hs with rfl | rfl <;> simp at hdep
  · decide

end Initd
